/-
Verification of the input-ingestion pipeline of quicktype
(src/quicktype-core/input/Inputs.ts): the `JSONInput` (sample) processor,
the `JSONSchemaInput` (schema) processor, and the `InputData` orchestrator.

The TypeScript classes are embedded as explicit state passing over Lean
structures.  JavaScript `Map` / immutable `OrderedMap` objects are embedded
as insertion-ordered association lists (`omSet` updates an existing key in
place, keeping its position, and appends a fresh key at the end, exactly as
both `Map.set` and `OrderedMap.set` behave).  Immutable `OrderedSet`s are
embedded as duplicate-free lists built with `osAdd` (adding an element that
is already present is a no-op, so first-occurrence order is kept).
Asynchronous methods are sequential in the source (`forEachSync`, `await`
in a loop), so they are embedded as plain sequential functions.
`panic`/`defined` failures are embedded as `Option` (`none` = panic) and
`messageError`/`assert` failures as explicit error results.
-/
import Mathlib

set_option autoImplicit false

universe u v

/-! ## Ordered maps and ordered sets (JS `Map`, immutable `OrderedMap`/`OrderedSet`) -/

/-- `Map.set` / `OrderedMap.set`: overwrite an existing key in place
(keeping its position in iteration order), otherwise append the new
binding at the end.  (A JS `Map` never holds two bindings of one key, so
replacing the first occurrence is the same as replacing every one.) -/
def omSet {α : Type u} (m : List (String × α)) (k : String) (v : α) : List (String × α) :=
  match m with
  | [] => [(k, v)]
  | p :: rest => if p.1 = k then (k, v) :: rest else p :: omSet rest k v

/-- `Map.get` / `OrderedMap.get`: the value of the first (only) binding of `k`. -/
def omGet {α : Type u} (m : List (String × α)) (k : String) : Option α :=
  (m.find? (fun p => p.1 = k)).map (fun p => p.2)

/-- `OrderedSet.add`: a no-op when the element is already present, otherwise
append at the end (first-occurrence order). -/
def osAdd {α : Type u} [DecidableEq α] (l : List α) (a : α) : List α :=
  if a ∈ l then l else l ++ [a]

/-- The `OrderedSet` of the elements of a list, in first-occurrence order
(`OrderedSet(...)`, or the result of mapping over an `OrderedSet`). -/
def osOfList {α : Type u} [DecidableEq α] (l : List α) : List α :=
  l.foldl osAdd []

/-! ## URI model

`Inputs.ts` uses the external `urijs` library: `new URI(uri).normalize()`,
`.clone().hash("")` (strip the fragment), `.toString()`, and `.path(p)`.
Modelled from the spec: a "Normalized URI" is "a URI put into canonical form
(scheme/path normalization) with a deterministic fragment-stripped form used
as a cache key".  We embed a URI as its canonical fragment-free part plus its
fragment; `new URI(s).normalize()` on an already-canonical string splits it
at the first `#`. -/

structure MUri where
  path : String
  fragment : String
deriving DecidableEq, Repr

/-- Split a character list at the first `#`. -/
def splitHashAux : List Char → List Char × List Char
  | [] => ([], [])
  | c :: cs =>
    if c = '#' then ([], cs)
    else
      let r := splitHashAux cs
      (c :: r.1, r.2)

/-- `new URI(s).normalize()`: the canonical fragment-free part and the
fragment of `s` (everything after the first `#`). -/
def parseURI (s : String) : MUri :=
  let r := splitHashAux s.toList
  ⟨String.mk r.1, String.mk r.2⟩

/-- `.toString()` of a URI. -/
def MUri.render (u : MUri) : String :=
  u.path ++ (if u.fragment = "" then "" else "#" ++ u.fragment)

/-- `.clone().hash("")`: the URI with its fragment removed. -/
def MUri.stripFragment (u : MUri) : MUri :=
  { u with fragment := "" }

/-! ## `JSONInput` (the "json" sample processor)

`Value` (from `CompressedJSON`) is an external compact value representation;
the embedding is polymorphic in it.  The value-parsing collaborator
(`CompressedJSON.readFromStream`) is a parameter `parse` that either yields
a value or fails with a message. -/

structure JSONTopLevel (V : Type u) where
  samples : List V
  description : Option String
deriving DecidableEq, Repr

/-- `JSONSourceData`: one `addSource` descriptor for the sample processor
(`StringInput` samples embedded as strings). -/
structure JSONSourceData where
  name : String
  samples : List String
  description : Option String
deriving DecidableEq, Repr

/-- The `_topLevels` state of a `JSONInput`. -/
abbrev JSONInputState (V : Type u) : Type u := List (String × JSONTopLevel V)

/-- `JSONInput.addSample`: append the sample to the top level of that name,
creating the top level (with empty samples and no description) first when
it does not exist yet. -/
def JSONInput.addSample {V : Type u} (st : JSONInputState V) (topLevelName : String)
    (sample : V) : JSONInputState V :=
  match omGet st topLevelName with
  | none => omSet st topLevelName ⟨[sample], none⟩
  | some topLevel => omSet st topLevelName ⟨topLevel.samples ++ [sample], topLevel.description⟩

/-- `JSONInput.setDescription`: set the description of an existing top level;
`none` is the `panic` taken when the top level does not exist. -/
def JSONInput.setDescription {V : Type u} (st : JSONInputState V) (topLevelName : String)
    (description : String) : Option (JSONInputState V) :=
  match omGet st topLevelName with
  | none => none
  | some topLevel => some (omSet st topLevelName ⟨topLevel.samples, some description⟩)

/-- The observable outcome of `JSONInput.addSource`: success, a
`MiscJSONParseError` raised by `messageError` (carrying the state as mutated
so far, the `withDefault(description, "input")` description, the `address`
(the top-level name) and the parse message), or the `setDescription` panic. -/
inductive JSONAddResult (V : Type u) where
  | ok (st : JSONInputState V)
  | parseError (st : JSONInputState V) (description : String) (address : String) (message : String)
  | panicked (st : JSONInputState V) (msg : String)

/-- The per-sample loop of `JSONInput.addSource`: parse each sample in order,
append it, and (when a description was given) set the description; a parse
failure raises immediately, keeping the state built so far. -/
def JSONInput.addSourceAux {V : Type u} (parse : String → Except String V) (name : String)
    (description : Option String) : List String → JSONInputState V → JSONAddResult V
  | [], st => .ok st
  | s :: rest, st =>
    match parse s with
    | .error m => .parseError st (description.getD "input") name m
    | .ok value =>
      let st1 := JSONInput.addSample st name value
      match description with
      | none => JSONInput.addSourceAux parse name none rest st1
      | some d =>
        match JSONInput.setDescription st1 name d with
        | none => .panicked st1 "Trying to set description for a top-level that doesn't exist"
        | some st2 => JSONInput.addSourceAux parse name (some d) rest st2

/-- `JSONInput.addSource`. -/
def JSONInput.addSource {V : Type u} (parse : String → Except String V)
    (source : JSONSourceData) (st : JSONInputState V) : JSONAddResult V :=
  JSONInput.addSourceAux parse source.name source.description source.samples st

/-- A sequence of `JSONInput.addSource` calls, stopping at the first failure. -/
def JSONInput.addSources {V : Type u} (parse : String → Except String V) :
    List JSONSourceData → JSONInputState V → JSONAddResult V
  | [], st => .ok st
  | src :: srcs, st =>
    match JSONInput.addSource parse src st with
    | .ok st' => JSONInput.addSources parse srcs st'
    | r => r

/-- The sample sequence recorded for a top-level name (empty when absent). -/
def JSONInput.samplesOf {V : Type u} (st : JSONInputState V) (name : String) : List V :=
  match omGet st name with
  | none => []
  | some tl => tl.samples

/-- The description recorded for a top-level name. -/
def JSONInput.descOf {V : Type u} (st : JSONInputState V) (name : String) : Option String :=
  match omGet st name with
  | none => none
  | some tl => tl.description

/-! ## `JSONSchemaInput` (the "schema" processor)

`Ref` (an opaque resolved pointer into a schema document) and the
schema-resolution collaborator `refsInSchemaForURI` live in
`JSONSchemaInput.ts`, outside the excerpted source; they are embedded
abstractly: `Ref` as an address plus a path, and the resolver as a function
parameter returning either one `(name, ref)` pair (the array case) or a map
of several (the `ReadonlyMap` case). -/

structure Ref where
  address : String
  path : List String
deriving DecidableEq, Repr

/-- The result of `refsInSchemaForURI`: either `[string, Ref]` (a single
reference with a resolver-supplied name) or a map of names to references. -/
inductive ResolveResult where
  | single (name : String) (ref : Ref)
  | multiple (pairs : List (String × Ref))
deriving Repr

/-- A schema store: either a caller-given delegate store, or the
`InputJSONSchemaStore` wrapper that serves directly-supplied schema text
first and falls back to the delegate. -/
inductive SchemaStore where
  | delegate (id : Nat)
  | input (cache : List (String × String)) (del : Option SchemaStore)
deriving Repr

/-- `JSONSchemaSourceData`: one `addSource` descriptor for the schema
processor (`StringInput` schema text embedded as a string). -/
structure JSONSchemaSourceData where
  name : String
  uris : Option (List String)
  schema : Option String
  isConverted : Option Bool
deriving DecidableEq, Repr

/-- The mutable state of a `JSONSchemaInput`: `_schemaStore`,
`_schemaInputs` (the SchemaTextCache, a JS `Map`), `_schemaSources`
(a `List` of normalized-URI/descriptor pairs), `_topLevels`
(an `OrderedMap`), and `_needIR`. -/
structure JSONSchemaInputState where
  schemaStore : Option SchemaStore
  schemaInputs : List (String × String)
  schemaSources : List (MUri × JSONSchemaSourceData)
  topLevels : List (String × Ref)
  needIR : Bool
deriving Repr

/-- The state of a freshly constructed `JSONSchemaInput givenSchemaStore`. -/
def JSONSchemaInput.init (givenSchemaStore : Option SchemaStore) : JSONSchemaInputState :=
  { schemaStore := givenSchemaStore
    schemaInputs := []
    schemaSources := []
    topLevels := []
    needIR := false }

/-- `JSONSchemaInput.addTopLevel`. -/
def JSONSchemaInput.addTopLevel (st : JSONSchemaInputState) (name : String) (ref : Ref) :
    JSONSchemaInputState :=
  { st with topLevels := omSet st.topLevels name ref }

/-- The synthetic fallback URI path of one `addSource` call:
`const uriPath = ` ++ "`-${this._schemaInputs.size + 1}`" ++ `;`,
computed from the current size of the SchemaTextCache. -/
def JSONSchemaInput.syntheticPath (st : JSONSchemaInputState) : String :=
  "-" ++ toString (st.schemaInputs.length + 1)

/-- The `normalizedURIs` local of `JSONSchemaInput.addSource`: the given URIs
normalized (with the synthetic path substituted when the fragment-stripped
form is empty), or a single synthetic URI when no URIs were given. -/
def JSONSchemaInput.normalizedURIs (st : JSONSchemaInputState)
    (schemaSource : JSONSchemaSourceData) : List MUri :=
  let uriPath := JSONSchemaInput.syntheticPath st
  match schemaSource.uris with
  | none => [⟨uriPath, ""⟩]
  | some uris =>
    uris.map (fun uri =>
      let normalizedURI := parseURI uri
      if normalizedURI.stripFragment.render = "" then
        { normalizedURI with path := uriPath }
      else
        normalizedURI)

/-- `JSONSchemaInput.addSource`.  `.error` is the
`assert(uris !== undefined, "URIs must be given if schema source is not specified")`
failure. -/
def JSONSchemaInput.addSource (st : JSONSchemaInputState) (schemaSource : JSONSchemaSourceData) :
    Except String JSONSchemaInputState :=
  let st := if schemaSource.isConverted ≠ some true then { st with needIR := true } else st
  let normalizedURIs : List MUri := JSONSchemaInput.normalizedURIs st schemaSource
  match schemaSource.schema with
  | none =>
    if schemaSource.uris = none then
      .error "URIs must be given if schema source is not specified"
    else
      .ok { st with
              schemaSources :=
                st.schemaSources ++ normalizedURIs.map (fun u => (u, schemaSource)) }
  | some schema =>
    let st :=
      { st with
          schemaInputs :=
            normalizedURIs.foldl
              (fun m (normalizedURI : MUri) => omSet m normalizedURI.stripFragment.render schema)
              st.schemaInputs }
    .ok { st with
            schemaSources :=
              st.schemaSources ++ normalizedURIs.map (fun u => (u, schemaSource)) }

/-- A sequence of `JSONSchemaInput.addSource` calls, stopping at the first
failure. -/
def JSONSchemaInput.addSources (st : JSONSchemaInputState) :
    List JSONSchemaSourceData → Except String JSONSchemaInputState
  | [] => .ok st
  | src :: srcs =>
    match JSONSchemaInput.addSource st src with
    | .error e => .error e
    | .ok st' => JSONSchemaInput.addSources st' srcs

/-- The top-level registration loop of `finishAddingInputs`: for each
normalized source in order, resolve it; a single reference is registered
under the source's declared name when `total` (the session's
`_schemaSources.size`) is `1` and under the resolver-supplied name
otherwise; a multi-reference map is registered name by name. -/
def JSONSchemaInput.registerSources (resolve : MUri → String → ResolveResult) (total : Nat) :
    List (MUri × JSONSchemaSourceData) → JSONSchemaInputState → JSONSchemaInputState
  | [], st => st
  | (normalizedURI, source) :: rest, st =>
    let st' :=
      match resolve normalizedURI source.name with
      | .single refName ref =>
        JSONSchemaInput.addTopLevel st (if total = 1 then source.name else refName) ref
      | .multiple pairs =>
        pairs.foldl (fun acc p => JSONSchemaInput.addTopLevel acc p.1 p.2) st
    JSONSchemaInput.registerSources resolve total rest st'

/-- `JSONSchemaInput.finishAddingInputs`, with the resolution collaborator
`refsInSchemaForURI` as the parameter `resolve`; `none` is the
`panic("Must have a schema store to process JSON Schema")`. -/
def JSONSchemaInput.finishAddingInputs (resolve : MUri → String → ResolveResult)
    (st : JSONSchemaInputState) : Option JSONSchemaInputState :=
  if st.schemaSources.isEmpty then some st
  else
    let withStore : Option JSONSchemaInputState :=
      if st.schemaInputs.length = 0 then
        match st.schemaStore with
        | none => none
        | some _ => some st
      else
        some { st with schemaStore := some (.input st.schemaInputs st.schemaStore) }
    match withStore with
    | none => none
    | some st1 =>
      some (JSONSchemaInput.registerSources resolve st1.schemaSources.length
              st1.schemaSources st1)

/-- `JSONSchemaInput.addTypes`: `defined(this._schemaStore)` panics (`none`)
when no store is present; otherwise it hands the store, the accumulated
name-to-Ref top levels and the attribute producers to `addTypesInSchema`.
Modelled from the spec: `addTypesInSchema` (the schema-materialization
collaborator, outside the excerpted source) "populates the type sink with
concrete types" for the accumulated top levels, embedded as returning the
registered `(name, ref)` pairs. -/
def JSONSchemaInput.addTypes (st : JSONSchemaInputState) : Option (List (String × Ref)) :=
  match st.schemaStore with
  | none => none
  | some _ => some st.topLevels

/-- `JSONSchemaInput.singleStringSchemaSource`: `undefined` unless every
recorded source entry's `schema` is a string; otherwise the immutable `Set`
of those strings, answered when it has exactly one member. -/
def JSONSchemaInput.singleStringSchemaSource (st : JSONSchemaInputState) : Option String :=
  if st.schemaSources.all (fun e => e.2.schema.isSome) then
    let set := osOfList (st.schemaSources.map (fun e => e.2.schema.getD ""))
    if set.length = 1 then set.head? else none
  else none

/-! ## `InputData` (the orchestrator) -/

/-- A registered `Input` processor, reduced to what `InputData.addSource`
inspects: its JS object identity (`id`) and its `kind` string. -/
structure InputProcessor where
  id : Nat
  kind : String
deriving DecidableEq, Repr

/-- `InputData.addInput`: `OrderedSet.add`, comparing for identity. -/
def InputData.addInput (inputs : List InputProcessor) (input : InputProcessor) :
    List InputProcessor :=
  osAdd inputs input

/-- `InputData.addSource` (registry part): look up an existing processor by
`kind` (string equality); construct and register one via `makeInput` only
when absent.  Feeding the source to the processor mutates that processor's
own state, not the registry, so the registry is the whole observable state
here. -/
def InputData.addSource (inputs : List InputProcessor) (kind : String)
    (makeInput : Unit → InputProcessor) : List InputProcessor :=
  match inputs.find? (fun i => i.kind = kind) with
  | some _ => inputs
  | none => InputData.addInput inputs (makeInput ())

/-- A session: a sequence of `InputData.addSource` calls starting from the
empty registry. -/
def InputData.run (calls : List (String × (Unit → InputProcessor))) : List InputProcessor :=
  calls.foldl (fun inputs c => InputData.addSource inputs c.1 c.2) []

/-- `InputData.singleStringSchemaSource`, applied to the per-processor
answers `this._inputs.map(i => i.singleStringSchemaSource())`.  Mapping over
the `OrderedSet` registry yields an `OrderedSet` of answers (`osOfList`),
whose non-`undefined` members are counted; `.error` is the
`panic("We have more than one input with a string schema source")`. -/
def InputData.singleStringSchemaSource (answers : List (Option String)) :
    Except String (Option String) :=
  let schemaStrings := (osOfList answers).filterMap id
  if schemaStrings.length > 1 then
    .error "We have more than one input with a string schema source"
  else
    .ok schemaStrings.head?

/-! ## Lemmas about the ordered collections -/

theorem omGet_nil {α : Type u} (k : String) : omGet ([] : List (String × α)) k = none := rfl

theorem omGet_cons {α : Type u} (p : String × α) (m : List (String × α)) (k : String) :
    omGet (p :: m) k = if p.1 = k then some p.2 else omGet m k := by
  by_cases h : p.1 = k
  · simp [omGet, List.find?_cons_of_pos, h]
  · simp [omGet, List.find?_cons_of_neg, h]

theorem omGet_omSet_self {α : Type u} (m : List (String × α)) (k : String) (v : α) :
    omGet (omSet m k v) k = some v := by
  induction m with
  | nil => simp [omSet, omGet_cons]
  | cons p m ih =>
    by_cases h : p.1 = k
    · simp [omSet, h, omGet_cons]
    · simp [omSet, h, omGet_cons, ih]

theorem omGet_omSet_ne {α : Type u} (m : List (String × α)) (k k' : String) (v : α)
    (h : k' ≠ k) : omGet (omSet m k v) k' = omGet m k' := by
  have hk : ¬(k = k') := fun hh => h hh.symm
  induction m with
  | nil => simp [omSet, omGet_cons, omGet_nil, hk]
  | cons p m ih =>
    by_cases hp : p.1 = k
    · simp [omSet, hp, omGet_cons, hk]
    · simp [omSet, hp, omGet_cons, ih]

theorem mem_osAdd {α : Type u} [DecidableEq α] (l : List α) (a b : α) :
    a ∈ osAdd l b ↔ a ∈ l ∨ a = b := by
  by_cases hb : b ∈ l
  · simp only [osAdd, if_pos hb]
    constructor
    · exact fun h => Or.inl h
    · rintro (h | rfl)
      · exact h
      · exact hb
  · simp [osAdd, if_neg hb]

theorem nodup_osAdd {α : Type u} [DecidableEq α] (l : List α) (b : α) (h : l.Nodup) :
    (osAdd l b).Nodup := by
  by_cases hb : b ∈ l
  · simpa [osAdd, if_pos hb] using h
  · rw [osAdd, if_neg hb]
    refine List.Nodup.append h (List.nodup_singleton b) ?_
    intro a ha ha'
    rw [List.mem_singleton] at ha'
    exact hb (ha' ▸ ha)

theorem mem_foldl_osAdd {α : Type u} [DecidableEq α] (l : List α) :
    ∀ (acc : List α) (a : α), a ∈ l.foldl osAdd acc ↔ a ∈ acc ∨ a ∈ l := by
  induction l with
  | nil => simp
  | cons b l ih =>
    intro acc a
    simp only [List.foldl_cons, ih, mem_osAdd, List.mem_cons]
    tauto

theorem nodup_foldl_osAdd {α : Type u} [DecidableEq α] (l : List α) :
    ∀ acc : List α, acc.Nodup → (l.foldl osAdd acc).Nodup := by
  induction l with
  | nil => exact fun acc h => h
  | cons b l ih =>
    intro acc h
    exact ih _ (nodup_osAdd _ _ h)

theorem mem_osOfList {α : Type u} [DecidableEq α] (l : List α) (a : α) :
    a ∈ osOfList l ↔ a ∈ l := by
  simp [osOfList, mem_foldl_osAdd]

theorem nodup_osOfList {α : Type u} [DecidableEq α] (l : List α) : (osOfList l).Nodup :=
  nodup_foldl_osAdd l [] List.nodup_nil

theorem foldl_osAdd_const {α : Type u} [DecidableEq α] (t : α) :
    ∀ l : List α, (∀ x ∈ l, x = t) → List.foldl osAdd [t] l = [t] := by
  intro l
  induction l with
  | nil => simp
  | cons x l ih =>
    intro h
    have hx : x = t := h x (List.mem_cons_self _ _)
    have hadd : osAdd [t] x = [t] := by simp [osAdd, hx]
    simpa [hadd] using ih (fun y hy => h y (List.mem_cons_of_mem _ hy))

theorem osOfList_const {α : Type u} [DecidableEq α] (t : α) (l : List α)
    (hne : l ≠ []) (h : ∀ x ∈ l, x = t) : osOfList l = [t] := by
  cases l with
  | nil => exact absurd rfl hne
  | cons x l =>
    have hx : x = t := h x (List.mem_cons_self _ _)
    subst hx
    have hadd : osAdd [] x = [x] := by simp [osAdd]
    simp only [osOfList, List.foldl_cons, hadd]
    exact foldl_osAdd_const x l (fun y hy => h y (List.mem_cons_of_mem _ hy))

theorem one_lt_length_of_mem_ne {α : Type u} (l : List α) (s t : α)
    (hs : s ∈ l) (ht : t ∈ l) (hne : s ≠ t) : 1 < l.length := by
  match l with
  | [] => cases hs
  | [x] =>
    rw [List.mem_singleton] at hs ht
    exact absurd (hs.trans ht.symm) hne
  | x :: y :: rest =>
    simp only [List.length_cons]
    omega

theorem eq_singleton_of_nodup {α : Type u} (l : List α) (s : α) (hn : l.Nodup)
    (hs : s ∈ l) (hall : ∀ t ∈ l, t = s) : l = [s] := by
  cases l with
  | nil => cases hs
  | cons a rest =>
    have ha : a = s := hall a (List.mem_cons_self _ _)
    subst ha
    have hrest : rest = [] := by
      cases rest with
      | nil => rfl
      | cons b rest' =>
        have hb : b = a := hall b (List.mem_cons_of_mem _ (List.mem_cons_self _ _))
        rw [List.nodup_cons] at hn
        exact absurd (hb ▸ List.mem_cons_self b rest') hn.1
    rw [hrest]

/-! ## Lemmas about `JSONInput` -/

theorem omGet_addSample_self {V : Type u} (st : JSONInputState V) (nm : String) (v : V) :
    omGet (JSONInput.addSample st nm v) nm =
      some ⟨JSONInput.samplesOf st nm ++ [v], JSONInput.descOf st nm⟩ := by
  unfold JSONInput.addSample JSONInput.samplesOf JSONInput.descOf
  cases h : omGet st nm <;> simp [h, omGet_omSet_self]

theorem samplesOf_addSample {V : Type u} (st : JSONInputState V) (nm : String) (v : V) :
    JSONInput.samplesOf (JSONInput.addSample st nm v) nm =
      JSONInput.samplesOf st nm ++ [v] := by
  simp [JSONInput.samplesOf, omGet_addSample_self]

theorem descOf_addSample {V : Type u} (st : JSONInputState V) (nm : String) (v : V) :
    JSONInput.descOf (JSONInput.addSample st nm v) nm = JSONInput.descOf st nm := by
  simp [JSONInput.descOf, omGet_addSample_self]

theorem setDescription_addSample {V : Type u} (st : JSONInputState V) (nm : String) (v : V)
    (d : String) :
    JSONInput.setDescription (JSONInput.addSample st nm v) nm d =
      some (omSet (JSONInput.addSample st nm v) nm
              ⟨JSONInput.samplesOf st nm ++ [v], some d⟩) := by
  unfold JSONInput.setDescription
  rw [omGet_addSample_self]

/-- The state reached by one successful parse step with a description. -/
theorem step_described {V : Type u} (st : JSONInputState V) (nm : String) (v : V) (d : String) :
    JSONInput.samplesOf
        (omSet (JSONInput.addSample st nm v) nm ⟨JSONInput.samplesOf st nm ++ [v], some d⟩) nm =
      JSONInput.samplesOf st nm ++ [v] ∧
    JSONInput.descOf
        (omSet (JSONInput.addSample st nm v) nm ⟨JSONInput.samplesOf st nm ++ [v], some d⟩) nm =
      some d := by
  constructor
  · simp [JSONInput.samplesOf, omGet_omSet_self]
  · simp [JSONInput.descOf, omGet_omSet_self]

theorem addSourceAux_ok {V : Type u} (parse : String → Except String V) (nm : String)
    (desc : Option String) :
    ∀ (ss : List String) (st : JSONInputState V),
      (∀ s ∈ ss, ∃ v, parse s = .ok v) →
      ∃ st', JSONInput.addSourceAux parse nm desc ss st = .ok st' ∧
        JSONInput.samplesOf st' nm =
          JSONInput.samplesOf st nm ++ ss.filterMap (fun s => (parse s).toOption) ∧
        JSONInput.descOf st' nm =
          (if ss = [] then JSONInput.descOf st nm else desc.or (JSONInput.descOf st nm)) := by
  intro ss
  induction ss with
  | nil =>
    intro st _
    exact ⟨st, rfl, by simp, by simp⟩
  | cons s rest ih =>
    intro st h
    obtain ⟨v, hv⟩ := h s (List.mem_cons_self _ _)
    have hrest : ∀ x ∈ rest, ∃ w, parse x = .ok w :=
      fun x hx => h x (List.mem_cons_of_mem _ hx)
    cases desc with
    | none =>
      obtain ⟨st', heq, hsam, hdesc⟩ := ih (JSONInput.addSample st nm v) hrest
      refine ⟨st', ?_, ?_, ?_⟩
      · simpa [JSONInput.addSourceAux, hv] using heq
      · rw [hsam, samplesOf_addSample]
        simp [hv, Except.toOption]
      · have hd : JSONInput.descOf st' nm = JSONInput.descOf st nm := by
          cases rest <;> simpa [descOf_addSample] using hdesc
        simp [hd]
    | some d =>
      set st2 := omSet (JSONInput.addSample st nm v) nm
        ⟨JSONInput.samplesOf st nm ++ [v], some d⟩ with hst2
      obtain ⟨st', heq, hsam, hdesc⟩ := ih st2 hrest
      refine ⟨st', ?_, ?_, ?_⟩
      · simpa [JSONInput.addSourceAux, hv, setDescription_addSample, hst2] using heq
      · rw [hsam, hst2, (step_described st nm v d).1]
        simp [hv, Except.toOption]
      · have h2 := (step_described st nm v d).2
        rw [← hst2] at h2
        have hd : JSONInput.descOf st' nm = some d := by
          cases rest <;> simp_all
        simp [hd]

theorem length_filterMap_parse {V : Type u} (parse : String → Except String V) :
    ∀ l : List String, (∀ s ∈ l, ∃ v, parse s = .ok v) →
      (l.filterMap (fun s => (parse s).toOption)).length = l.length := by
  intro l
  induction l with
  | nil => simp
  | cons s rest ih =>
    intro h
    obtain ⟨v, hv⟩ := h s (List.mem_cons_self _ _)
    have hr := ih (fun x hx => h x (List.mem_cons_of_mem _ hx))
    rw [List.filterMap_cons, hv]
    simpa [Except.toOption] using hr

theorem addSources_same_name {V : Type u} (parse : String → Except String V) (nm : String) :
    ∀ (calls : List (List String × Option String)) (st : JSONInputState V),
      (∀ c ∈ calls, ∀ s ∈ c.1, ∃ v, parse s = .ok v) →
      ∃ st', JSONInput.addSources parse
          (calls.map (fun c => ⟨nm, c.1, c.2⟩)) st = .ok st' ∧
        JSONInput.samplesOf st' nm = JSONInput.samplesOf st nm ++
          ((calls.map (fun c => c.1)).flatten).filterMap (fun s => (parse s).toOption) := by
  intro calls
  induction calls with
  | nil =>
    intro st _
    exact ⟨st, rfl, by simp⟩
  | cons c rest ih =>
    intro st h
    obtain ⟨st1, heq1, hsam1, _⟩ :=
      addSourceAux_ok parse nm c.2 c.1 st (h c (List.mem_cons_self _ _))
    obtain ⟨st', heq, hsam⟩ :=
      ih st1 (fun x hx s hs => h x (List.mem_cons_of_mem _ hx) s hs)
    refine ⟨st', ?_, ?_⟩
    · simpa [JSONInput.addSources, JSONInput.addSource, heq1] using heq
    · rw [hsam, hsam1]
      simp [List.filterMap_append, List.append_assoc]

/-! ## Lemmas about `JSONSchemaInput.addSource` -/

theorem stripFragment_render (u : MUri) : u.stripFragment.render = u.path := by
  simp [MUri.stripFragment, MUri.render, String.append_empty]

theorem normalizedURIs_needIR (st : JSONSchemaInputState) (b : Bool)
    (src : JSONSchemaSourceData) :
    JSONSchemaInput.normalizedURIs { st with needIR := b } src =
      JSONSchemaInput.normalizedURIs st src := rfl

theorem addSource_eq_of_schema (st : JSONSchemaInputState) (src : JSONSchemaSourceData)
    (sch : String) (h : src.schema = some sch) :
    JSONSchemaInput.addSource st src = .ok
      { schemaStore := st.schemaStore
        schemaInputs := (JSONSchemaInput.normalizedURIs st src).foldl
          (fun m u => omSet m u.stripFragment.render sch) st.schemaInputs
        schemaSources := st.schemaSources ++
          (JSONSchemaInput.normalizedURIs st src).map (fun u => (u, src))
        topLevels := st.topLevels
        needIR := if src.isConverted ≠ some true then true else st.needIR } := by
  by_cases hc : src.isConverted ≠ some true <;>
    simp [JSONSchemaInput.addSource, h, hc, normalizedURIs_needIR]

theorem addSource_eq_of_uris (st : JSONSchemaInputState) (src : JSONSchemaSourceData)
    (us : List String) (h : src.schema = none) (hu : src.uris = some us) :
    JSONSchemaInput.addSource st src = .ok
      { schemaStore := st.schemaStore
        schemaInputs := st.schemaInputs
        schemaSources := st.schemaSources ++
          (JSONSchemaInput.normalizedURIs st src).map (fun u => (u, src))
        topLevels := st.topLevels
        needIR := if src.isConverted ≠ some true then true else st.needIR } := by
  have hu' : src.uris ≠ none := by simp [hu]
  by_cases hc : src.isConverted ≠ some true <;>
    simp [JSONSchemaInput.addSource, h, hu', hc, normalizedURIs_needIR]

theorem addSource_error_iff (st : JSONSchemaInputState) (src : JSONSchemaSourceData) :
    (∃ e, JSONSchemaInput.addSource st src = .error e) ↔
      src.schema = none ∧ src.uris = none := by
  cases h : src.schema with
  | some sch => simp [addSource_eq_of_schema st src sch h]
  | none =>
    cases hu : src.uris with
    | some us => simp [addSource_eq_of_uris st src us h hu]
    | none =>
      by_cases hc : src.isConverted ≠ some true <;>
        simp [JSONSchemaInput.addSource, h, hu, hc]

/-- The number of `_schemaSources` entries one descriptor contributes:
one per given URI, or one synthetic entry when no URIs were given. -/
def numURIs (src : JSONSchemaSourceData) : Nat :=
  match src.uris with
  | none => 1
  | some us => us.length

theorem length_normalizedURIs (st : JSONSchemaInputState) (src : JSONSchemaSourceData) :
    (JSONSchemaInput.normalizedURIs st src).length = numURIs src := by
  cases hu : src.uris <;> simp [JSONSchemaInput.normalizedURIs, numURIs, hu]

theorem addSource_sources_map (st : JSONSchemaInputState) (src : JSONSchemaSourceData)
    (st' : JSONSchemaInputState) (h : JSONSchemaInput.addSource st src = .ok st') :
    st'.schemaSources.map (fun e => e.2) =
      st.schemaSources.map (fun e => e.2) ++ List.replicate (numURIs src) src := by
  have hmap : ((JSONSchemaInput.normalizedURIs st src).map (fun u => (u, src))).map
      (fun (e : MUri × JSONSchemaSourceData) => e.2) = List.replicate (numURIs src) src := by
    rw [List.map_map]
    have : ((fun (e : MUri × JSONSchemaSourceData) => e.2) ∘ (fun u => (u, src))) =
        Function.const MUri src := rfl
    rw [this, List.map_const, length_normalizedURIs]
  cases hs : src.schema with
  | some sch =>
    rw [addSource_eq_of_schema st src sch hs] at h
    cases h
    simp [hmap]
  | none =>
    cases hu : src.uris with
    | some us =>
      rw [addSource_eq_of_uris st src us hs hu] at h
      cases h
      simp [hmap]
    | none =>
      obtain ⟨e, he⟩ := (addSource_error_iff st src).2 ⟨hs, hu⟩
      rw [he] at h
      cases h

theorem addSources_sources_map :
    ∀ (ds : List JSONSchemaSourceData) (st st' : JSONSchemaInputState),
      JSONSchemaInput.addSources st ds = .ok st' →
      st'.schemaSources.map (fun e => e.2) =
        st.schemaSources.map (fun e => e.2) ++
          (ds.map (fun d => List.replicate (numURIs d) d)).flatten := by
  intro ds
  induction ds with
  | nil =>
    intro st st' h
    cases h
    simp [JSONSchemaInput.addSources]
  | cons d ds ih =>
    intro st st' h
    rw [JSONSchemaInput.addSources] at h
    cases hd : JSONSchemaInput.addSource st d with
    | error e => rw [hd] at h; cases h
    | ok st1 =>
      rw [hd] at h
      have h1 := addSource_sources_map st d st1 hd
      have h2 := ih st1 st' h
      rw [h2, h1]
      simp [List.append_assoc]

/-! ## Lemmas about `finishAddingInputs` and `singleStringSchemaSource` -/

theorem registerSources_all_single (resolve : MUri → String → ResolveResult) (total : Nat)
    (nf : MUri × JSONSchemaSourceData → String) (rf : MUri × JSONSchemaSourceData → Ref)
    (htotal : total ≠ 1) :
    ∀ (ss : List (MUri × JSONSchemaSourceData)) (st : JSONSchemaInputState),
      (∀ e ∈ ss, resolve e.1 e.2.name = .single (nf e) (rf e)) →
      (JSONSchemaInput.registerSources resolve total ss st).topLevels =
        ss.foldl (fun m e => omSet m (nf e) (rf e)) st.topLevels := by
  intro ss
  induction ss with
  | nil => intro st _; rfl
  | cons e rest ih =>
    intro st h
    obtain ⟨u, src⟩ := e
    have he := h (u, src) (List.mem_cons_self _ _)
    rw [JSONSchemaInput.registerSources, he]
    show (JSONSchemaInput.registerSources resolve total rest
        (JSONSchemaInput.addTopLevel st (if total = 1 then src.name else nf (u, src))
          (rf (u, src)))).topLevels = _
    rw [if_neg htotal, ih _ (fun x hx => h x (List.mem_cons_of_mem _ hx))]
    rfl

/-- A successful `finishAddingInputs` run on a non-empty session is the
top-level registration loop over an intermediate state that differs from
the input state at most in its schema store. -/
theorem finish_some_eq (resolve : MUri → String → ResolveResult)
    (st st' : JSONSchemaInputState)
    (h : JSONSchemaInput.finishAddingInputs resolve st = some st')
    (hne : st.schemaSources ≠ []) :
    ∃ st1 : JSONSchemaInputState,
      st1.schemaSources = st.schemaSources ∧
      st1.topLevels = st.topLevels ∧
      st' = JSONSchemaInput.registerSources resolve st.schemaSources.length
              st1.schemaSources st1 := by
  rw [JSONSchemaInput.finishAddingInputs] at h
  have hne' : st.schemaSources.isEmpty = false := by
    cases hs : st.schemaSources with
    | nil => exact absurd hs hne
    | cons a l => simp [hs]
  rw [hne'] at h
  simp only [Bool.false_eq_true, if_false] at h
  by_cases hsi : st.schemaInputs.length = 0
  · rw [if_pos hsi] at h
    cases hst : st.schemaStore with
    | none => rw [hst] at h; cases h
    | some s =>
      rw [hst] at h
      simp only [Option.some.injEq] at h
      exact ⟨st, rfl, rfl, h.symm⟩
  · rw [if_neg hsi] at h
    simp only [Option.some.injEq] at h
    refine ⟨{ st with schemaStore := some (.input st.schemaInputs st.schemaStore) },
      rfl, rfl, h.symm⟩

theorem singleString_some_iff (st : JSONSchemaInputState) (t : String) :
    JSONSchemaInput.singleStringSchemaSource st = some t ↔
      (st.schemaSources ≠ [] ∧ ∀ e ∈ st.schemaSources, e.2.schema = some t) := by
  rw [JSONSchemaInput.singleStringSchemaSource]
  by_cases hall : st.schemaSources.all (fun e => e.2.schema.isSome) = true
  · rw [if_pos hall]
    rw [List.all_eq_true] at hall
    constructor
    · intro h
      by_cases hlen :
          (osOfList (st.schemaSources.map (fun e => e.2.schema.getD ""))).length = 1
      · rw [if_pos hlen] at h
        have hset : osOfList (st.schemaSources.map (fun e => e.2.schema.getD "")) = [t] := by
          cases hs : osOfList (st.schemaSources.map (fun e => e.2.schema.getD "")) with
          | nil => rw [hs] at hlen; cases hlen
          | cons x l =>
            rw [hs] at hlen h
            cases l with
            | nil =>
              simp only [List.head?] at h
              cases h
              rfl
            | cons y l' => simp at hlen
        constructor
        · intro hnil
          rw [hnil] at hset
          simp [osOfList] at hset
        · intro e he
          have hx : e.2.schema.getD "" ∈
              st.schemaSources.map (fun e => e.2.schema.getD "") :=
            List.mem_map_of_mem _ he
          rw [← mem_osOfList, hset, List.mem_singleton] at hx
          have hsome := hall e he
          cases hsch : e.2.schema with
          | none => rw [hsch] at hsome; cases hsome
          | some x =>
            rw [hsch] at hx
            simp only [Option.getD_some] at hx
            rw [hx]
      · rw [if_neg hlen] at h
        cases h
    · rintro ⟨hne, hval⟩
      have hmem : ∀ x ∈ st.schemaSources.map (fun e => e.2.schema.getD ""), x = t := by
        intro x hx
        rw [List.mem_map] at hx
        obtain ⟨e, he, hxe⟩ := hx
        rw [hval e he] at hxe
        simpa using hxe.symm
      have hmapne : st.schemaSources.map (fun e => e.2.schema.getD "") ≠ [] := by
        simp [hne]
      rw [osOfList_const t _ hmapne hmem]
      simp
  · rw [if_neg hall]
    rw [List.all_eq_true] at hall
    push_neg at hall
    obtain ⟨e, he, hsch⟩ := hall
    constructor
    · intro h; cases h
    · rintro ⟨_, hval⟩
      have := hval e he
      rw [this] at hsch
      simp at hsch

/-! ## Lemmas about `InputData` -/

theorem inputData_addSource_of_found (inputs : List InputProcessor) (kind : String)
    (makeInput : Unit → InputProcessor) (h : ∃ i ∈ inputs, i.kind = kind) :
    InputData.addSource inputs kind makeInput = inputs := by
  rw [InputData.addSource]
  cases hf : inputs.find? (fun i => i.kind = kind) with
  | some _ => rfl
  | none =>
    rw [List.find?_eq_none] at hf
    obtain ⟨i, hi, hk⟩ := h
    have := hf i hi
    simp [hk] at this

theorem inputData_addSource_kinds_nodup (inputs : List InputProcessor) (kind : String)
    (makeInput : Unit → InputProcessor) (hwf : (makeInput ()).kind = kind)
    (h : (inputs.map (fun i => i.kind)).Nodup) :
    ((InputData.addSource inputs kind makeInput).map (fun i => i.kind)).Nodup := by
  rw [InputData.addSource]
  cases hf : inputs.find? (fun i => i.kind = kind) with
  | some _ => exact h
  | none =>
    rw [List.find?_eq_none] at hf
    rw [InputData.addInput, osAdd]
    by_cases hm : makeInput () ∈ inputs
    · rw [if_pos hm]; exact h
    · rw [if_neg hm, List.map_append]
      have hnotin : (makeInput ()).kind ∉ inputs.map (fun i => i.kind) := by
        intro hmem
        rw [List.mem_map] at hmem
        obtain ⟨i, hi, hk⟩ := hmem
        have := hf i hi
        rw [hwf] at hk
        simp [hk] at this
      refine List.Nodup.append h ?_ ?_
      · simp
      · intro a ha ha'
        simp only [List.map_cons, List.map_nil, List.mem_singleton] at ha'
        subst ha'
        exact hnotin ha

theorem inputData_run_aux (calls : List (String × (Unit → InputProcessor))) :
    ∀ acc : List InputProcessor,
      (∀ c ∈ calls, (c.2 ()).kind = c.1) →
      (acc.map (fun i => i.kind)).Nodup →
      ((calls.foldl (fun inputs c => InputData.addSource inputs c.1 c.2) acc).map
        (fun i => i.kind)).Nodup := by
  induction calls with
  | nil => intro acc _ h; exact h
  | cons c rest ih =>
    intro acc hwf h
    rw [List.foldl_cons]
    exact ih _ (fun x hx => hwf x (List.mem_cons_of_mem _ hx))
      (inputData_addSource_kinds_nodup acc c.1 c.2 (hwf c (List.mem_cons_self _ _)) h)

/-! ## The error path of `JSONInput.addSource` -/

theorem addSourceAux_err {V : Type u} (parse : String → Except String V) (nm : String)
    (desc : Option String) (bad : String) (rest : List String) (em : String)
    (hbad : parse bad = .error em) :
    ∀ (good : List String) (st : JSONInputState V),
      (∀ s ∈ good, ∃ v, parse s = .ok v) →
      ∃ st', JSONInput.addSourceAux parse nm desc (good ++ bad :: rest) st =
          .parseError st' (desc.getD "input") nm em ∧
        JSONInput.samplesOf st' nm = JSONInput.samplesOf st nm ++
          good.filterMap (fun s => (parse s).toOption) ∧
        JSONInput.descOf st' nm =
          (if good = [] then JSONInput.descOf st nm else desc.or (JSONInput.descOf st nm)) ∧
        (good = [] → st' = st) := by
  intro good
  induction good with
  | nil =>
    intro st _
    refine ⟨st, ?_, by simp, by simp, fun _ => rfl⟩
    simp [JSONInput.addSourceAux, hbad]
  | cons s good' ih =>
    intro st h
    obtain ⟨v, hv⟩ := h s (List.mem_cons_self _ _)
    have hrest : ∀ x ∈ good', ∃ w, parse x = .ok w :=
      fun x hx => h x (List.mem_cons_of_mem _ hx)
    cases desc with
    | none =>
      obtain ⟨st', heq, hsam, hdesc, _⟩ := ih (JSONInput.addSample st nm v) hrest
      refine ⟨st', ?_, ?_, ?_, ?_⟩
      · simpa [JSONInput.addSourceAux, hv] using heq
      · rw [hsam, samplesOf_addSample]
        simp [hv, Except.toOption]
      · have hd : JSONInput.descOf st' nm = JSONInput.descOf st nm := by
          cases good' <;> simpa [descOf_addSample] using hdesc
        simp [hd]
      · intro hcon; cases hcon
    | some d =>
      set st2 := omSet (JSONInput.addSample st nm v) nm
        ⟨JSONInput.samplesOf st nm ++ [v], some d⟩ with hst2
      obtain ⟨st', heq, hsam, hdesc, _⟩ := ih st2 hrest
      refine ⟨st', ?_, ?_, ?_, ?_⟩
      · simpa [JSONInput.addSourceAux, hv, setDescription_addSample, hst2] using heq
      · rw [hsam, hst2, (step_described st nm v d).1]
        simp [hv, Except.toOption]
      · have h2 := (step_described st nm v d).2
        rw [← hst2] at h2
        have hd : JSONInput.descOf st' nm = some d := by
          cases good' <;> simp_all
        simp [hd]
      · intro hcon; cases hcon

/-! ## The claims -/

/-- Claim C1 (amended): in `finishAddingInputs`, the naming policy for a
single-reference resolution is decided by the number of recorded
normalized-URI source entries (`_schemaSources.size`), not by the number of
descriptors submitted: a session whose recorded source list is exactly one
entry registers the reference under the source's own declared name, and a
session with two or more recorded entries registers every single-reference
resolution under the name supplied by the resolution step. -/
theorem schemaInput_naming_policy :
    (∀ (resolve : MUri → String → ResolveResult) (st st' : JSONSchemaInputState)
        (u : MUri) (src : JSONSchemaSourceData) (n : String) (r : Ref),
        st.schemaSources = [(u, src)] →
        resolve u src.name = .single n r →
        JSONSchemaInput.finishAddingInputs resolve st = some st' →
        st'.topLevels = omSet st.topLevels src.name r) ∧
    (∀ (resolve : MUri → String → ResolveResult) (st st' : JSONSchemaInputState)
        (nf : MUri × JSONSchemaSourceData → String) (rf : MUri × JSONSchemaSourceData → Ref),
        2 ≤ st.schemaSources.length →
        (∀ e ∈ st.schemaSources, resolve e.1 e.2.name = .single (nf e) (rf e)) →
        JSONSchemaInput.finishAddingInputs resolve st = some st' →
        st'.topLevels =
          st.schemaSources.foldl (fun m e => omSet m (nf e) (rf e)) st.topLevels) := by
  constructor
  · intro resolve st st' u src n r hss hres hfin
    have hne : st.schemaSources ≠ [] := by rw [hss]; simp
    obtain ⟨st1, h1s, h1t, h1e⟩ := finish_some_eq resolve st st' hfin hne
    rw [h1e, h1s, hss]
    simp [JSONSchemaInput.registerSources, hres, JSONSchemaInput.addTopLevel, h1t]
  · intro resolve st st' nf rf hlen hres hfin
    have hne : st.schemaSources ≠ [] := by
      intro hnil
      rw [hnil] at hlen
      simp at hlen
    obtain ⟨st1, h1s, h1t, h1e⟩ := finish_some_eq resolve st st' hfin hne
    have htot : st.schemaSources.length ≠ 1 := by omega
    rw [h1e, h1s, registerSources_all_single resolve _ nf rf htot st.schemaSources st1 hres,
      h1t]

theorem schemaInput_naming_policy_witness :
    (⟨some (.delegate 0), [], [(⟨"u", ""⟩, ⟨"A", some ["u"], none, none⟩)],
        [("A", ⟨"u", []⟩)], true⟩ : JSONSchemaInputState).topLevels =
      omSet ([] : List (String × Ref)) "A" ⟨"u", []⟩ ∧
    (⟨some (.delegate 0), [],
        [(⟨"u", ""⟩, ⟨"A", some ["u"], none, none⟩),
         (⟨"w", ""⟩, ⟨"B", some ["w"], none, none⟩)],
        [("Ru", ⟨"u", []⟩), ("Rw", ⟨"w", []⟩)], true⟩ : JSONSchemaInputState).topLevels =
      ([(⟨"u", ""⟩, (⟨"A", some ["u"], none, none⟩ : JSONSchemaSourceData)),
        (⟨"w", ""⟩, ⟨"B", some ["w"], none, none⟩)] :
          List (MUri × JSONSchemaSourceData)).foldl
        (fun m e => omSet m ("R" ++ e.1.path) ⟨e.1.path, []⟩) [] := by
  constructor
  · exact schemaInput_naming_policy.1 (fun _ _ => .single "X" ⟨"u", []⟩)
      ⟨some (.delegate 0), [], [(⟨"u", ""⟩, ⟨"A", some ["u"], none, none⟩)], [], true⟩
      ⟨some (.delegate 0), [], [(⟨"u", ""⟩, ⟨"A", some ["u"], none, none⟩)],
        [("A", ⟨"u", []⟩)], true⟩
      ⟨"u", ""⟩ ⟨"A", some ["u"], none, none⟩ "X" ⟨"u", []⟩ rfl rfl rfl
  · exact schemaInput_naming_policy.2 (fun u _ => .single ("R" ++ u.path) ⟨u.path, []⟩)
      ⟨some (.delegate 0), [],
        [(⟨"u", ""⟩, ⟨"A", some ["u"], none, none⟩),
         (⟨"w", ""⟩, ⟨"B", some ["w"], none, none⟩)], [], true⟩
      ⟨some (.delegate 0), [],
        [(⟨"u", ""⟩, ⟨"A", some ["u"], none, none⟩),
         (⟨"w", ""⟩, ⟨"B", some ["w"], none, none⟩)],
        [("Ru", ⟨"u", []⟩), ("Rw", ⟨"w", []⟩)], true⟩
      (fun e => "R" ++ e.1.path) (fun e => ⟨e.1.path, []⟩)
      (by simp) (by intro e he; fin_cases he <;> rfl) rfl

/-- Claim C1 counterexample: a session in which TWO schema source
descriptors were submitted (the second with an explicitly empty URI list,
so it records no normalized-URI entry) resolves a single reference and
registers it under the FIRST source's declared name "A", not under the
name "X" supplied by the resolution step, contradicting the claim's
"two or more schema sources" clause. -/
theorem schemaInput_naming_two_descriptors_cex :
    ((JSONSchemaInput.addSources (JSONSchemaInput.init none)
        [⟨"A", some ["u"], some "s", none⟩, ⟨"B", some [], some "t", none⟩]).toOption.bind
      (fun st =>
        (JSONSchemaInput.finishAddingInputs (fun _ _ => .single "X" ⟨"u", []⟩) st).map
          (fun (s : JSONSchemaInputState) => s.topLevels))) =
      some [("A", ⟨"u", []⟩)] := rfl

/-- Claim C2 (amended): the synthetic fallback URI path of an `addSource`
call is `-(n+1)` where `n` is the current size of the SchemaTextCache
(`_schemaInputs`), not a per-call counter: it is used both for an anonymous
source (no URIs) and for a URI whose fragment-stripped normalized form is
empty, but it only advances when literal schema text is stored under a new
cache key, so distinct `addSource` calls can receive the same synthetic
path. -/
theorem schemaInput_synthetic_path_from_cache_size :
    (∀ (st : JSONSchemaInputState) (src : JSONSchemaSourceData) (sch : String),
        src.uris = none → src.schema = some sch →
        ∃ st', JSONSchemaInput.addSource st src = .ok st' ∧
          st'.schemaSources = st.schemaSources ++
            [(⟨JSONSchemaInput.syntheticPath st, ""⟩, src)] ∧
          st'.schemaInputs = omSet st.schemaInputs (JSONSchemaInput.syntheticPath st) sch) ∧
    (∀ (st : JSONSchemaInputState) (src : JSONSchemaSourceData) (u f : String),
        src.uris = some [u] → src.schema = none → parseURI u = ⟨"", f⟩ →
        ∃ st', JSONSchemaInput.addSource st src = .ok st' ∧
          st'.schemaSources = st.schemaSources ++
            [(⟨JSONSchemaInput.syntheticPath st, f⟩, src)] ∧
          st'.schemaInputs = st.schemaInputs) := by
  constructor
  · intro st src sch hu hs
    have hnorm : JSONSchemaInput.normalizedURIs st src =
        [⟨JSONSchemaInput.syntheticPath st, ""⟩] := by
      simp [JSONSchemaInput.normalizedURIs, hu]
    refine ⟨_, addSource_eq_of_schema st src sch hs, ?_, ?_⟩
    · simp [hnorm]
    · simp [hnorm, stripFragment_render]
  · intro st src u f hu hs hp
    have hnorm : JSONSchemaInput.normalizedURIs st src =
        [⟨JSONSchemaInput.syntheticPath st, f⟩] := by
      simp [JSONSchemaInput.normalizedURIs, hu, hp, stripFragment_render]
    refine ⟨_, addSource_eq_of_uris st src [u] hs hu, ?_, ?_⟩
    · simp [hnorm]
    · rfl

theorem schemaInput_synthetic_path_from_cache_size_witness :
    (∃ st' : JSONSchemaInputState,
        JSONSchemaInput.addSource (JSONSchemaInput.init none) ⟨"A", none, some "s", none⟩ =
          .ok st' ∧
        st'.schemaSources =
          [] ++ [(⟨JSONSchemaInput.syntheticPath (JSONSchemaInput.init none), ""⟩,
            ⟨"A", none, some "s", none⟩)] ∧
        st'.schemaInputs =
          omSet [] (JSONSchemaInput.syntheticPath (JSONSchemaInput.init none)) "s") ∧
    (∃ st' : JSONSchemaInputState,
        JSONSchemaInput.addSource (JSONSchemaInput.init none) ⟨"B", some ["#b"], none, none⟩ =
          .ok st' ∧
        st'.schemaSources =
          [] ++ [(⟨JSONSchemaInput.syntheticPath (JSONSchemaInput.init none), "b"⟩,
            ⟨"B", some ["#b"], none, none⟩)] ∧
        st'.schemaInputs = []) :=
  ⟨schemaInput_synthetic_path_from_cache_size.1 (JSONSchemaInput.init none)
      ⟨"A", none, some "s", none⟩ "s" rfl rfl,
   schemaInput_synthetic_path_from_cache_size.2 (JSONSchemaInput.init none)
      ⟨"B", some ["#b"], none, none⟩ "#b" "b" rfl rfl rfl⟩

/-- Claim C2 counterexample: two distinct `addSource` calls (each a
fragment-only URI with no literal schema text) both receive the synthetic
path "-1", because neither call grows the SchemaTextCache whose size the
path is computed from — refuting "two distinct addSource calls never
receive the same synthetic path". -/
theorem schemaInput_synthetic_path_collision_cex :
    (JSONSchemaInput.addSources (JSONSchemaInput.init none)
        [⟨"A", some ["#a"], none, none⟩, ⟨"B", some ["#b"], none, none⟩]).map
      (fun st => st.schemaSources.map (fun e => e.1.path)) = .ok ["-1", "-1"] := rfl

/-- Claim C3: for every session of `InputData.addSource` calls (each with a
factory constructing a processor of the requested kind), the registry holds
at most one processor per distinct kind string: the kinds of the registry
are duplicate-free, and a call for an already-seen kind (string equality)
leaves the registry unchanged, reusing the existing processor. -/
theorem inputData_one_processor_per_kind :
    (∀ calls : List (String × (Unit → InputProcessor)),
        (∀ c ∈ calls, (c.2 ()).kind = c.1) →
        ((InputData.run calls).map (fun i => i.kind)).Nodup) ∧
    (∀ (inputs : List InputProcessor) (kind : String) (makeInput : Unit → InputProcessor),
        (∃ i ∈ inputs, i.kind = kind) →
        InputData.addSource inputs kind makeInput = inputs) := by
  constructor
  · intro calls hwf
    exact inputData_run_aux calls [] hwf (by simp)
  · exact inputData_addSource_of_found

theorem inputData_one_processor_per_kind_witness :
    ((InputData.run
        [("json", fun _ => ⟨0, "json"⟩), ("json", fun _ => ⟨1, "json"⟩),
         ("schema", fun _ => ⟨2, "schema"⟩)]).map (fun i => i.kind)).Nodup ∧
    InputData.addSource [⟨0, "json"⟩] "json" (fun _ => ⟨1, "json"⟩) = [⟨0, "json"⟩] :=
  ⟨inputData_one_processor_per_kind.1 _ (by intro c hc; fin_cases hc <;> rfl),
   inputData_one_processor_per_kind.2 [⟨0, "json"⟩] "json" (fun _ => ⟨1, "json"⟩)
     ⟨⟨0, "json"⟩, by simp, rfl⟩⟩

/-- Claim C4: `InputData.singleStringSchemaSource` discards `undefined`
answers; two distinct reported schema strings make it fail fatally
(`MultipleSchemaSources`); otherwise it returns the sole reported string
(several processors reporting the identical string yield that string, by
the set semantics of the registry mapping), or `undefined` when no
processor reports one. -/
theorem inputData_singleStringSchemaSource_spec :
    (∀ (answers : List (Option String)) (s t : String),
        some s ∈ answers → some t ∈ answers → s ≠ t →
        ∃ e, InputData.singleStringSchemaSource answers = .error e) ∧
    (∀ (answers : List (Option String)) (s : String),
        some s ∈ answers → (∀ t : String, some t ∈ answers → t = s) →
        InputData.singleStringSchemaSource answers = .ok (some s)) ∧
    (∀ answers : List (Option String),
        (∀ s : String, some s ∉ answers) →
        InputData.singleStringSchemaSource answers = .ok none) := by
  have hmem : ∀ (answers : List (Option String)) (s : String),
      s ∈ (osOfList answers).filterMap id ↔ some s ∈ answers := by
    intro answers s
    rw [List.mem_filterMap]
    constructor
    · rintro ⟨a, ha, haeq⟩
      rw [← haeq]
      exact (mem_osOfList answers a).1 ha
    · intro h
      exact ⟨some s, (mem_osOfList answers (some s)).2 h, rfl⟩
  refine ⟨?_, ?_, ?_⟩
  · intro answers s t hs ht hne
    rw [InputData.singleStringSchemaSource]
    rw [if_pos (one_lt_length_of_mem_ne _ s t
      ((hmem answers s).2 hs) ((hmem answers t).2 ht) hne)]
    exact ⟨_, rfl⟩
  · intro answers s hs hall
    have hnodup : ((osOfList answers).filterMap id).Nodup := by
      refine List.Nodup.filterMap ?_ (nodup_osOfList answers)
      intro a a' b hb hb'
      simp only [Option.mem_def, id_eq] at hb hb'
      rw [hb, hb']
    have hsingle : (osOfList answers).filterMap id = [s] := by
      refine eq_singleton_of_nodup _ s hnodup ((hmem answers s).2 hs) ?_
      intro t ht
      exact hall t ((hmem answers t).1 ht)
    rw [InputData.singleStringSchemaSource]
    rw [hsingle]
    rfl
  · intro answers hnone
    have hempty : (osOfList answers).filterMap id = [] := by
      rw [List.eq_nil_iff_forall_not_mem]
      intro s hsmem
      exact hnone s ((hmem answers s).1 hsmem)
    rw [InputData.singleStringSchemaSource, hempty]
    rfl

theorem inputData_singleStringSchemaSource_spec_witness :
    (∃ e, InputData.singleStringSchemaSource [some "a", some "b"] = .error e) ∧
    InputData.singleStringSchemaSource [some "a", none, some "a"] = .ok (some "a") ∧
    InputData.singleStringSchemaSource [none] = .ok none :=
  ⟨inputData_singleStringSchemaSource_spec.1 [some "a", some "b"] "a" "b"
      (by simp) (by simp) (by decide),
   inputData_singleStringSchemaSource_spec.2.1 [some "a", none, some "a"] "a"
      (by simp) (by intro t ht; simpa using ht),
   inputData_singleStringSchemaSource_spec.2.2 [none] (by simp)⟩

/-- Claim C5 (amended): `JSONSchemaInput.singleStringSchemaSource` on a
session built by successful `addSource` calls returns a string exactly when
at least one descriptor contributed a recorded URI-source entry, and every
descriptor that contributed at least one entry (i.e. whose URI list was not
explicitly empty) supplied that same literal text; a descriptor with an
explicitly empty URI list records no entry and is ignored by the check. -/
theorem schemaInput_singleStringSchemaSource_spec (store : Option SchemaStore)
    (ds : List JSONSchemaSourceData) (st : JSONSchemaInputState) (t : String)
    (h : JSONSchemaInput.addSources (JSONSchemaInput.init store) ds = .ok st) :
    JSONSchemaInput.singleStringSchemaSource st = some t ↔
      ((∃ d ∈ ds, numURIs d ≠ 0) ∧ ∀ d ∈ ds, numURIs d ≠ 0 → d.schema = some t) := by
  have hmap := addSources_sources_map ds (JSONSchemaInput.init store) st h
  simp only [JSONSchemaInput.init, List.map_nil, List.nil_append] at hmap
  rw [singleString_some_iff]
  constructor
  · rintro ⟨hne, hval⟩
    constructor
    · by_contra hcon
      push_neg at hcon
      apply hne
      have hmnil : st.schemaSources.map (fun e => e.2) = [] := by
        rw [hmap, List.flatten_eq_nil_iff]
        intro l hl
        rw [List.mem_map] at hl
        obtain ⟨d, hd, hld⟩ := hl
        rw [← hld, hcon d hd]
        rfl
      exact List.map_eq_nil_iff.mp hmnil
    · intro d hd hnum
      have hdmem : d ∈ st.schemaSources.map (fun e => e.2) := by
        rw [hmap, List.mem_flatten]
        exact ⟨List.replicate (numURIs d) d, List.mem_map_of_mem _ hd,
          List.mem_replicate.2 ⟨hnum, rfl⟩⟩
      rw [List.mem_map] at hdmem
      obtain ⟨e, he, hed⟩ := hdmem
      rw [← hed]
      exact hval e he
  · rintro ⟨⟨d, hd, hnum⟩, hval⟩
    constructor
    · intro hnil
      have hdmem : d ∈ st.schemaSources.map (fun e => e.2) := by
        rw [hmap, List.mem_flatten]
        exact ⟨List.replicate (numURIs d) d, List.mem_map_of_mem _ hd,
          List.mem_replicate.2 ⟨hnum, rfl⟩⟩
      rw [hnil] at hdmem
      simp at hdmem
    · intro e he
      have hemem : e.2 ∈ st.schemaSources.map (fun e => e.2) := List.mem_map_of_mem _ he
      rw [hmap, List.mem_flatten] at hemem
      obtain ⟨l, hl, hel⟩ := hemem
      rw [List.mem_map] at hl
      obtain ⟨d', hd', hld'⟩ := hl
      rw [← hld', List.mem_replicate] at hel
      obtain ⟨hn', he2⟩ := hel
      rw [he2]
      exact hval d' hd' hn'

theorem schemaInput_singleStringSchemaSource_spec_witness :
    JSONSchemaInput.singleStringSchemaSource
        ⟨none, [("-1", "s"), ("u", "s")],
          [(⟨"-1", ""⟩, ⟨"A", none, some "s", none⟩),
           (⟨"u", ""⟩, ⟨"B", some ["u"], some "s", none⟩)], [], true⟩ = some "s" :=
  (schemaInput_singleStringSchemaSource_spec none
      [⟨"A", none, some "s", none⟩, ⟨"B", some ["u"], some "s", none⟩]
      ⟨none, [("-1", "s"), ("u", "s")],
        [(⟨"-1", ""⟩, ⟨"A", none, some "s", none⟩),
         (⟨"u", ""⟩, ⟨"B", some ["u"], some "s", none⟩)], [], true⟩ "s" rfl).mpr
    ⟨⟨⟨"A", none, some "s", none⟩, by simp, by decide⟩,
     by intro d hd _; fin_cases hd <;> rfl⟩

/-- Claim C5 counterexample: of two submitted schema sources, the first
supplies no literal text (and an explicitly empty URI list) while the
second supplies literal text "s" — the claim requires the answer "none"
because a source lacks literal text, but `singleStringSchemaSource`
answers "s", since the text-less descriptor recorded no URI-source entry
and is invisible to the check. -/
theorem schemaInput_singleString_empty_uris_cex :
    (JSONSchemaInput.addSources (JSONSchemaInput.init none)
        [⟨"A", some [], none, none⟩, ⟨"B", none, some "s", none⟩]).map
      JSONSchemaInput.singleStringSchemaSource = .ok (some "s") := rfl

/-- Claim C6 (amended): `JSONSchemaInput.addSource` fails with the
missing-schema-source assertion exactly when the descriptor's `schema` is
absent and its `uris` field is absent (`undefined`); a descriptor with an
explicitly empty `uris` array and no schema text passes the assertion and
does not raise the error (it merely records nothing). -/
theorem schemaInput_missing_source_error_iff (st : JSONSchemaInputState)
    (src : JSONSchemaSourceData) :
    (∃ e, JSONSchemaInput.addSource st src = .error e) ↔
      (src.schema = none ∧ src.uris = none) :=
  addSource_error_iff st src

theorem schemaInput_missing_source_error_iff_witness :
    ∃ e, JSONSchemaInput.addSource (JSONSchemaInput.init none)
        ⟨"A", none, none, none⟩ = .error e :=
  (schemaInput_missing_source_error_iff (JSONSchemaInput.init none)
    ⟨"A", none, none, none⟩).mpr ⟨rfl, rfl⟩

/-- Claim C6 counterexample: this descriptor supplies neither literal
schema text nor any URI (its URI list is explicitly empty), yet the
`addSource` call succeeds instead of failing with MissingSchemaSource,
because the assertion only checks that the `uris` field is defined. -/
theorem schemaInput_empty_uris_no_error_cex :
    JSONSchemaInput.addSource (JSONSchemaInput.init none) ⟨"A", some [], none, none⟩ =
      .ok ⟨none, [], [], [], true⟩ := rfl

theorem normalizedURIs_single_nonempty (st : JSONSchemaInputState)
    (src : JSONSchemaSourceData) (s b f : String) (hu : src.uris = some [s])
    (hp : parseURI s = ⟨b, f⟩) (hb : b ≠ "") :
    JSONSchemaInput.normalizedURIs st src = [⟨b, f⟩] := by
  simp [JSONSchemaInput.normalizedURIs, hu, hp, stripFragment_render, hb]

/-- Claim C7: two `addSource` calls supplying literal schema text under two
URIs with the same fragment-stripped normalized form `b` (for instance
`b#frag1` and `b#frag2`) leave the SchemaTextCache with exactly one entry,
keyed by `b`, holding the text of the later call. -/
theorem schemaTextCache_single_entry_fragments (store : Option SchemaStore)
    (n1 n2 : String) (c1 c2 : Option Bool) (s1 s2 b f1 f2 t1 t2 : String)
    (h1 : parseURI s1 = ⟨b, f1⟩) (h2 : parseURI s2 = ⟨b, f2⟩) (hb : b ≠ "") :
    ∃ st1 st2 : JSONSchemaInputState,
      JSONSchemaInput.addSource (JSONSchemaInput.init store)
          ⟨n1, some [s1], some t1, c1⟩ = .ok st1 ∧
      JSONSchemaInput.addSource st1 ⟨n2, some [s2], some t2, c2⟩ = .ok st2 ∧
      st2.schemaInputs = [(b, t2)] := by
  refine ⟨_, _, addSource_eq_of_schema _ _ t1 rfl, addSource_eq_of_schema _ _ t2 rfl, ?_⟩
  have hn1 : ∀ st : JSONSchemaInputState,
      JSONSchemaInput.normalizedURIs st ⟨n1, some [s1], some t1, c1⟩ = [⟨b, f1⟩] :=
    fun st => normalizedURIs_single_nonempty st _ s1 b f1 rfl h1 hb
  have hn2 : ∀ st : JSONSchemaInputState,
      JSONSchemaInput.normalizedURIs st ⟨n2, some [s2], some t2, c2⟩ = [⟨b, f2⟩] :=
    fun st => normalizedURIs_single_nonempty st _ s2 b f2 rfl h2 hb
  simp only [hn1, hn2]
  simp [JSONSchemaInput.init, stripFragment_render, omSet]

theorem schemaTextCache_single_entry_fragments_witness :
    ∃ st1 st2 : JSONSchemaInputState,
      JSONSchemaInput.addSource (JSONSchemaInput.init none)
          ⟨"A", some ["u#frag1"], some "s", none⟩ = .ok st1 ∧
      JSONSchemaInput.addSource st1 ⟨"B", some ["u#frag2"], some "s", none⟩ = .ok st2 ∧
      st2.schemaInputs = [("u", "s")] :=
  schemaTextCache_single_entry_fragments none "A" "B" none none
    "u#frag1" "u#frag2" "u" "frag1" "frag2" "s" "s" rfl rfl (by decide)

/-- Claim C8: for every sequence of `addSource` calls on the sample
processor targeting the same top-level name, in which every sample parses
successfully, the resulting top-level sample set is the concatenation of
all submitted samples (as parsed) in submission order, and its length is
the total number of samples submitted across all calls. -/
theorem jsonInput_samples_concat {V : Type u} (parse : String → Except String V)
    (nm : String) (calls : List (List String × Option String))
    (h : ∀ c ∈ calls, ∀ s ∈ c.1, ∃ v, parse s = .ok v) :
    ∃ st, JSONInput.addSources parse (calls.map (fun c => ⟨nm, c.1, c.2⟩)) [] = .ok st ∧
      JSONInput.samplesOf st nm =
        ((calls.map (fun c => c.1)).flatten).filterMap (fun s => (parse s).toOption) ∧
      (JSONInput.samplesOf st nm).length = ((calls.map (fun c => c.1)).flatten).length := by
  obtain ⟨st, heq, hsam⟩ := addSources_same_name parse nm calls [] h
  have hflat : ∀ s ∈ (calls.map (fun c => c.1)).flatten, ∃ v, parse s = .ok v := by
    intro s hs
    rw [List.mem_flatten] at hs
    obtain ⟨l, hl, hsl⟩ := hs
    rw [List.mem_map] at hl
    obtain ⟨c, hc, hlc⟩ := hl
    rw [← hlc] at hsl
    exact h c hc s hsl
  refine ⟨st, heq, ?_, ?_⟩
  · simpa using hsam
  · have : JSONInput.samplesOf st nm =
        ((calls.map (fun c => c.1)).flatten).filterMap (fun s => (parse s).toOption) := by
      simpa using hsam
    rw [this, length_filterMap_parse parse _ hflat]

theorem jsonInput_samples_concat_witness :
    ∃ st, JSONInput.addSources (fun s => Except.ok s.length)
        (([(["a", "bb"], none), (["ccc"], some "d")] :
            List (List String × Option String)).map (fun c => ⟨"P", c.1, c.2⟩)) [] = .ok st ∧
      JSONInput.samplesOf st "P" =
        ((([(["a", "bb"], none), (["ccc"], some "d")] :
            List (List String × Option String)).map (fun c => c.1)).flatten).filterMap
          (fun s => ((Except.ok s.length : Except String Nat)).toOption) ∧
      (JSONInput.samplesOf st "P").length =
        ((([(["a", "bb"], none), (["ccc"], some "d")] :
            List (List String × Option String)).map (fun c => c.1)).flatten).length :=
  jsonInput_samples_concat (fun s => Except.ok s.length) "P"
    [(["a", "bb"], none), (["ccc"], some "d")]
    (fun _ _ s _ => ⟨s.length, rfl⟩)

/-- Claim C9 (amended): `addTypes` before `finishAddingInputs` panics
exactly when the schema input was constructed without a schema store
(`defined(this._schemaStore)` fails); when a store is present it does not
crash and only materializes the (stale or empty) top levels accumulated so
far. -/
theorem schemaInput_addTypes_store_guard :
    (∀ st : JSONSchemaInputState, st.schemaStore = none →
        JSONSchemaInput.addTypes st = none) ∧
    (∀ (st : JSONSchemaInputState) (s : SchemaStore), st.schemaStore = some s →
        JSONSchemaInput.addTypes st = some st.topLevels) := by
  constructor
  · intro st h
    rw [JSONSchemaInput.addTypes, h]
  · intro st s h
    rw [JSONSchemaInput.addTypes, h]

theorem schemaInput_addTypes_store_guard_witness :
    JSONSchemaInput.addTypes ⟨none, [], [], [("A", ⟨"u", []⟩)], false⟩ = none ∧
    JSONSchemaInput.addTypes (JSONSchemaInput.init (some (.delegate 0))) =
      some (JSONSchemaInput.init (some (.delegate 0))).topLevels :=
  ⟨schemaInput_addTypes_store_guard.1 ⟨none, [], [], [("A", ⟨"u", []⟩)], false⟩ rfl,
   schemaInput_addTypes_store_guard.2 (JSONSchemaInput.init (some (.delegate 0)))
     (.delegate 0) rfl⟩

/-- Claim C9 counterexample: a `JSONSchemaInput` constructed without a
schema store panics (`defined(this._schemaStore)`, embedded as `none`) when
`addTypes` is called before `finishAddingInputs`, so the panic branch IS
reachable, contradicting "never crashes ... in any phase ordering". -/
theorem schemaInput_addTypes_no_store_panics_cex :
    JSONSchemaInput.addTypes (JSONSchemaInput.init none) = none := rfl

/-- Claim C10: `JSONInput.addSource` is not atomic on failure: when the
first `k-1` samples of a call parse and the `k`-th fails, the parse error
is raised immediately with the failing message, but the `k-1` parsed
samples stay appended to the top-level sample set (and the descriptor's
description, when one was given and at least one sample of the call
succeeded, stays recorded); only when the very first sample fails is the
state unchanged. -/
theorem jsonInput_addSource_not_atomic {V : Type u} (parse : String → Except String V)
    (nm : String) (desc : Option String) (good : List String) (bad : String)
    (rest : List String) (em : String) (st : JSONInputState V)
    (hgood : ∀ s ∈ good, ∃ v, parse s = .ok v) (hbad : parse bad = .error em) :
    ∃ st', JSONInput.addSource parse ⟨nm, good ++ bad :: rest, desc⟩ st =
        .parseError st' (desc.getD "input") nm em ∧
      JSONInput.samplesOf st' nm = JSONInput.samplesOf st nm ++
        good.filterMap (fun s => (parse s).toOption) ∧
      (good ≠ [] → ∀ d, desc = some d → JSONInput.descOf st' nm = some d) ∧
      (good = [] → st' = st) := by
  obtain ⟨st', heq, hsam, hdesc, hnil⟩ :=
    addSourceAux_err parse nm desc bad rest em hbad good st hgood
  refine ⟨st', heq, hsam, ?_, hnil⟩
  intro hne d hd
  rw [hd] at hdesc
  rw [if_neg hne] at hdesc
  simpa using hdesc

theorem jsonInput_addSource_not_atomic_witness :
    ∃ st', JSONInput.addSource
        (fun s => if s = "BAD" then Except.error "boom" else Except.ok s.length)
        ⟨"P", ["x"] ++ "BAD" :: ["y"], some "d"⟩ ([] : JSONInputState Nat) =
        .parseError st' ((some "d").getD "input") "P" "boom" ∧
      JSONInput.samplesOf st' "P" = JSONInput.samplesOf ([] : JSONInputState Nat) "P" ++
        (["x"] : List String).filterMap
          (fun s => ((if s = "BAD" then Except.error "boom" else Except.ok s.length :
            Except String Nat)).toOption) ∧
      ((["x"] : List String) ≠ [] → ∀ d, (some "d" : Option String) = some d →
        JSONInput.descOf st' "P" = some d) ∧
      ((["x"] : List String) = [] → st' = ([] : JSONInputState Nat)) :=
  jsonInput_addSource_not_atomic
    (fun s => if s = "BAD" then Except.error "boom" else Except.ok s.length)
    "P" (some "d") ["x"] "BAD" ["y"] "boom" []
    (by intro s hs; rw [List.mem_singleton] at hs; subst hs; exact ⟨"x".length, rfl⟩)
    rfl
